import Mathlib

/-!
Shallow embedding of `lang_tester`'s specification parser (`src/parser.rs`)
together with the data model it produces, and theorems checking the
natural-language specification against it.

Strings are modelled as `List Char`.  Rust indexes strings by UTF-8 *byte*
offsets: `&s[n..]` panics when `n` is out of bounds or does not fall on a
character boundary.  We model such slicing with `byteDrop` / `byteTake`,
which return `none` exactly when the Rust slice would panic, and thread a
`ParseErr.panicked` error through the parser in that case.

The crate's `tester.rs` and `fuzzy.rs` are not part of the sources under
verification; the types they define (`Status`, `TestCmd`, the pattern-line
layer) are modelled from the spec where needed, and marked as such.
-/

/-- A Rust `&str` line, as its list of characters. -/
abbrev Line := List Char

/-- Rust `char::is_whitespace`: the Unicode White_Space property
(U+0009–U+000D, U+0020, U+0085, U+00A0, U+1680, U+2000–U+200A, U+2028,
U+2029, U+202F, U+205F, U+3000). -/
def rustIsWhitespace (c : Char) : Bool :=
  let n := c.toNat
  (n == 0x09) || (n == 0x0A) || (n == 0x0B) || (n == 0x0C) || (n == 0x0D) ||
  (n == 0x20) || (n == 0x85) || (n == 0xA0) || (n == 0x1680) ||
  (decide (0x2000 ≤ n) && decide (n ≤ 0x200A)) ||
  (n == 0x2028) || (n == 0x2029) || (n == 0x202F) || (n == 0x205F) || (n == 0x3000)

/-- Rust `iter.take_while(p).count()`: length of the longest p-satisfying
prefix. -/
def countWhile (p : Char → Bool) : List Char → Nat
  | [] => 0
  | c :: cs => if p c then countWhile p cs + 1 else 0

/-- Rust `str::len`: the length in UTF-8 bytes. -/
def byte_len (l : Line) : Nat := (l.map Char.utf8Size).sum

/-- Rust `&s[n..]`: drop the first `n` UTF-8 bytes.  `none` exactly when the
Rust slice panics: `n` past the end, or `n` inside a multi-byte character. -/
def byteDrop : Nat → List Char → Option (List Char)
  | 0, l => some l
  | _ + 1, [] => none
  | n, c :: cs => if n < c.utf8Size then none else byteDrop (n - c.utf8Size) cs

/-- Rust `&s[..n]`: take the first `n` UTF-8 bytes.  `none` exactly when the
Rust slice panics. -/
def byteTake : Nat → List Char → Option (List Char)
  | 0, _ => some []
  | _ + 1, [] => none
  | n, c :: cs =>
    if n < c.utf8Size then none
    else (byteTake (n - c.utf8Size) cs).map (fun r => c :: r)

/-- Rust `str::trim`, left half: drop leading Unicode whitespace. -/
def trimLeft (l : Line) : Line := l.dropWhile rustIsWhitespace

/-- Rust `str::trim`, right half: drop trailing Unicode whitespace. -/
def trimRight (l : Line) : Line := (l.reverse.dropWhile rustIsWhitespace).reverse

/-- Rust `str::trim`: drop leading and trailing whitespace. -/
def rustTrim (l : Line) : Line := trimRight (trimLeft l)

/-- ASCII fragment of Rust `char`/`str::to_lowercase`: maps `A`–`Z` to
`a`–`z` and fixes every other character.  The parser only ever compares the
result against ASCII keywords, and the claims only exercise ASCII labels,
so the non-ASCII case mappings of the full Unicode function are not
modelled. -/
def to_lower_char (c : Char) : Char :=
  if h : 65 ≤ c.toNat ∧ c.toNat ≤ 90 then
    Char.ofNatAux (c.toNat + 32) (Or.inl (by omega))
  else c

/-- Rust `str::to_lowercase` (ASCII fragment, see `to_lower_char`). -/
def to_lowercase (l : Line) : Line := l.map to_lower_char

/-- An ASCII decimal digit `0`–`9`. -/
def is_ascii_digit (c : Char) : Bool :=
  decide (48 ≤ c.toNat) && decide (c.toNat ≤ 57)

/-- Helper for `parse_i32`: accumulate decimal digits; `none` at the first
non-digit. -/
def digitsVal : List Char → Nat → Option Nat
  | [], acc => some acc
  | c :: cs, acc =>
    if is_ascii_digit c then digitsVal cs (acc * 10 + (c.toNat - 48)) else none

/-- Helper for `parse_i32`: a non-empty all-digit string's value. -/
def parseDigits : List Char → Option Nat
  | [] => none
  | l => digitsVal l 0

/-- Rust `str::parse::<i32>`: optional sign, then one or more decimal
digits, rejecting values outside `i32`'s range. -/
def parse_i32 (s : Line) : Option Int :=
  match s with
  | [] => none
  | c :: ds =>
    if c = '+' then
      (parseDigits ds).bind fun v =>
        if v ≤ 2147483647 then some (Int.ofNat v) else none
    else if c = '-' then
      (parseDigits ds).bind fun v =>
        if v ≤ 2147483648 then some (-(Int.ofNat v)) else none
    else
      (parseDigits (c :: ds)).bind fun v =>
        if v ≤ 2147483647 then some (Int.ofNat v) else none

/-- Failure modes of the parser.  `fatal(...)` calls in `parser.rs` abort
the process; they are modelled as error values.  `panicked` models a Rust
string-slicing panic.  `outOfFuel` is an artifact of the fuel-based
recursion; `parse_tests` always supplies sufficient fuel and provably never
returns it (`parse_tests_ne_outOfFuel`). -/
inductive ParseErr where
  | panicked
  | outOfFuel
  | invalidKeyTerminator
  | testNameHasValue
  | duplicateCommandName
  | unknownStatus
  | unknownKey
deriving DecidableEq

/-- Modelled from the spec: `Status` lives in `tester.rs`, which is not
among the sources under verification.  Spec §3: "expectedStatus: tagged
variant {Success, Error, Signal, ExitCode(int)}".  `parser.rs` names the
variants `Status::Success`, `Status::Error`, `Status::Signal`,
`Status::Int(i)`. -/
inductive Status where
  | success
  | error
  | signal
  | int (code : Int)
deriving DecidableEq

/-- Modelled from the spec: `TestCmd` lives in `tester.rs`, which is not
among the sources under verification.  Fields follow the spec's
`CommandExpectation` (§3): `extraArgs` an ordered sequence, `status` a
`Status`, and `expectedStdout`/`expectedStderr` an *optional* sequence of
lines — absent means "no assertion", present-but-empty means "expect
exactly empty output".  Field names follow `parser.rs`'s uses
(`testcmd.args`, `.status`, `.stderr`, `.stdout`). -/
structure TestCmd where
  args : List Line
  status : Status
  stderr : Option (List Line)
  stdout : Option (List Line)
deriving DecidableEq

/-- Modelled from the spec: `TestCmd::default()` (spec §3: `extraArgs`
accumulates from empty, `expectedStatus` defaults to `Success` when the
`status` key is absent, stdout/stderr assertions are absent). -/
def TestCmd.default : TestCmd := ⟨[], Status.success, none, none⟩

/-- The parse result (`Tests` in `tester.rs`): the `ignore` flag and the
commands, keyed by lowercased label.  The Rust `HashMap` is modelled as an
association list in insertion order; `lookupCmd` is its lookup. -/
structure Tests where
  ignore : Bool
  tests : List (Line × TestCmd)
deriving DecidableEq

/-- Lookup in the association list modelling the `HashMap`. -/
def lookupCmd : Line → List (Line × TestCmd) → Option TestCmd
  | _, [] => none
  | k, (k2, c) :: ts => if k = k2 then some c else lookupCmd k ts

/-- Rust `indent_level` (`parser.rs` lines 91–96): the number of leading
whitespace *characters* of the line. -/
def indent_level (l : Line) : Nat := countWhile rustIsWhitespace l

/-- Rust `key_val` (`parser.rs` lines 98–123).  Turns `key: val` into its
components.  Every `countWhile` below counts characters, and every count is
then used as a *byte* offset, exactly as in the source (`line[indent..]`,
`&line[indent..indent + key_len]`, `line[content_start..]`). -/
def key_val (line : Line) (indent : Nat) : Except ParseErr (Line × Line) :=
  match byteDrop indent line with
  | none => .error .panicked
  | some rest =>
    let key_len := countWhile (fun c => !(rustIsWhitespace c || c == ':')) rest
    match byteTake key_len rest with
    | none => .error .panicked
    | some key =>
      match byteDrop key_len rest with
      | none => .error .panicked
      | some rest2 =>
        let ws := countWhile rustIsWhitespace rest2
        match byteDrop ws rest2 with
        | none => .error .panicked
        | some rest3 =>
          match rest3 with
          | ':' :: rest4 =>
            let ws2 := countWhile rustIsWhitespace rest4
            match byteDrop ws2 rest4 with
            | none => .error .panicked
            | some rest5 => .ok (key, rustTrim rest5)
          | _ => .error .invalidKeyTerminator

/-- The continuation-line loop of `key_multiline_val` (`parser.rs` lines
137–149), over the lines following the `key: val` line.  Returns the pushed
value lines and the number of input lines consumed.  A blank line pushes an
empty string; a line indented at most `indent` stops the loop; any other
line is byte-sliced at `sub_indent` (panicking as Rust does when that
offset is out of bounds or off a character boundary) and trimmed. -/
def kmv_loop (ls : List Line) (sub_indent indent : Nat) :
    Except ParseErr (List Line × Nat) :=
  match ls with
  | [] => .ok ([], 0)
  | l :: rest =>
    let cur_indent := indent_level l
    if cur_indent = byte_len l then
      match kmv_loop rest sub_indent indent with
      | .ok (vs, n) => .ok ([] :: vs, n + 1)
      | .error e => .error e
    else if cur_indent ≤ indent then .ok ([], 0)
    else
      match byteDrop sub_indent l with
      | none => .error .panicked
      | some sliced =>
        match kmv_loop rest sub_indent indent with
        | .ok (vs, n) => .ok (rustTrim sliced :: vs, n + 1)
        | .error e => .error e

/-- Remove trailing empty strings (`parser.rs` lines 151–154). -/
def remTrailingEmpty (v : List Line) : List Line :=
  (v.reverse.dropWhile List.isEmpty).reverse

/-- Remove leading empty strings (`parser.rs` lines 155–158). -/
def remLeadingEmpty (v : List Line) : List Line :=
  v.dropWhile List.isEmpty

/-- Rust `key_multiline_val` (`parser.rs` lines 125–161) on the line `l`
followed by the lines `ls`.  `sub_indent` is the indentation of the first
line after the key line — blank or not — and every later continuation line
is sliced at that byte offset.  Returns the key, the value lines with
leading and trailing empty entries removed, and the number of lines of `ls`
consumed (so Rust's returned `end_line_off` is the key line's offset plus
one plus that count). -/
def key_multiline_val (l : Line) (ls : List Line) (indent : Nat) :
    Except ParseErr (Line × List Line × Nat) :=
  match key_val l indent with
  | .error e => .error e
  | .ok (key, first_line_val) =>
    match ls with
    | [] => .ok (key, remLeadingEmpty (remTrailingEmpty [first_line_val]), 0)
    | l1 :: _ =>
      let sub_indent := indent_level l1
      match kmv_loop ls sub_indent indent with
      | .error e => .error e
      | .ok (vs, n) =>
        .ok (key, remLeadingEmpty (remTrailingEmpty (first_line_val :: vs)), n)

/-- The `status` value match of `parse_tests` (`parser.rs` lines 56–72):
lowercase the joined value, match `success` / `error` / `signal`, else try
`parse::<i32>`, else the fatal "Unknown status" error. -/
def parse_status (val_str : Line) : Except ParseErr Status :=
  let x := to_lowercase val_str
  if x = "success".data then .ok .success
  else if x = "error".data then .ok .error
  else if x = "signal".data then .ok .signal
  else
    match parse_i32 x with
    | some i => .ok (.int i)
    | none => .error .unknownStatus

/-- Rust `Vec::join("\n")` on the value lines. -/
def joinNL (v : List Line) : Line := List.intercalate ['\n'] v

/-- The `match key` arms of `parse_tests` (`parser.rs` lines 51–82):
`extra-args` appends the joined value to `args`; `status` parses the
status; `stderr`/`stdout` store the value lines; any other key is the fatal
"Unknown key" error. -/
def applyEntry (key : Line) (val : List Line) (cmd : TestCmd) :
    Except ParseErr TestCmd :=
  if key = "extra-args".data then
    .ok { cmd with args := cmd.args ++ [joinNL val] }
  else if key = "status".data then
    match parse_status (joinNL val) with
    | .ok st => .ok { cmd with status := st }
    | .error e => .error e
  else if key = "stderr".data then .ok { cmd with stderr := some val }
  else if key = "stdout".data then .ok { cmd with stdout := some val }
  else .error .unknownKey

/-- The inner `while` loop of `parse_tests` (`parser.rs` lines 40–83),
which collects the `key: value` entries of one command label.  `indent` is
the label line's indentation.  A blank line is skipped; a line indented
*exactly* like the label ends the block; any other line — more or less
indented than the label — is consumed as an entry via `key_multiline_val`.
Returns the finished `TestCmd` and the number of lines consumed.  `fuel`
makes the recursion structural; each iteration consumes at least one line,
so `fuel ≥ ls.length` never exhausts (`parse_entries_ne_outOfFuel`). -/
def parse_entries : Nat → List Line → Nat → TestCmd →
    Except ParseErr (TestCmd × Nat)
  | _, [], _, testcmd => .ok (testcmd, 0)
  | 0, _ :: _, _, _ => .error .outOfFuel
  | fuel + 1, l :: rest, indent, testcmd =>
    let sub_indent := indent_level l
    if sub_indent = byte_len l then
      match parse_entries fuel rest indent testcmd with
      | .ok (c, n) => .ok (c, n + 1)
      | .error e => .error e
    else if sub_indent = indent then .ok (testcmd, 0)
    else
      match key_multiline_val l rest sub_indent with
      | .error e => .error e
      | .ok (key, val, n) =>
        match applyEntry key val testcmd with
        | .error e => .error e
        | .ok testcmd2 =>
          match parse_entries fuel (rest.drop n) indent testcmd2 with
          | .ok (c, m) => .ok (c, 1 + n + m)
          | .error e => .error e

/-- The outer `while` loop of `parse_tests` (`parser.rs` lines 14–87).  A
blank line is skipped; a line whose key is `ignore` sets the flag and moves
on; otherwise the line declares a command label, which must have no value
and must not (lowercased) already be present, and its entry block is
collected by `parse_entries`. -/
def parse_outer : Nat → List Line → Bool → List (Line × TestCmd) →
    Except ParseErr Tests
  | _, [], ignore, tests => .ok ⟨ignore, tests⟩
  | 0, _ :: _, _, _ => .error .outOfFuel
  | fuel + 1, l :: rest, ignore, tests =>
    let indent := indent_level l
    if indent = byte_len l then parse_outer fuel rest ignore tests
    else
      match key_val l indent with
      | .error e => .error e
      | .ok (test_name, val) =>
        if test_name = "ignore".data then parse_outer fuel rest true tests
        else if val ≠ [] then .error .testNameHasValue
        else if (lookupCmd (to_lowercase test_name) tests).isSome then
          .error .duplicateCommandName
        else
          match parse_entries fuel rest indent TestCmd.default with
          | .error e => .error e
          | .ok (testcmd, n) =>
            parse_outer fuel (rest.drop n) ignore
              (tests ++ [(to_lowercase test_name, testcmd)])

/-- Split on `'\n'`; the result always has one more part than there are
newlines. -/
def splitNL : List Char → List (List Char)
  | [] => [[]]
  | c :: cs =>
    let r := splitNL cs
    if c = '\n' then [] :: r else (c :: r.headD []) :: r.tail

/-- Strip one trailing `'\r'`, as Rust `str::lines` does on each line that
ended in `'\n'`. -/
def stripCR (l : List Char) : List Char :=
  if l.getLast? = some '\r' then l.dropLast else l

/-- Rust `str::lines`: split at `'\n'`, strip a trailing `'\r'` from each
line that ended with `'\n'`, and drop the empty segment after a final
newline (so there is no trailing empty line, and a lone final `'\r'` with
no newline is kept). -/
def rustLines (s : List Char) : List Line :=
  let parts := splitNL s
  let init := parts.dropLast.map stripCR
  let last := parts.getLastD []
  if last = [] then init else init ++ [last]

/-- Rust `parse_tests` (`parser.rs` lines 9–89): split the input into
lines and run the outer loop.  The fuel is the number of lines, which is
always sufficient (`parse_tests_ne_outOfFuel`). -/
def parse_tests (test_str : String) : Except ParseErr Tests :=
  parse_outer (rustLines test_str.data).length (rustLines test_str.data) false []

/-- Modelled from the spec: the pattern-line layer lives in `fuzzy.rs`,
which is not among the sources under verification.  Spec §3: a
`PatternLine` is `Exact(text)`, `PrefixWildcard(suffix)` (the line began
with the `...` marker; here `matchesEnd`), `SuffixWildcard(prefix)` (the
line ended with it; here `matchesStart`), `SubstringWildcard(middle)`
(both; here `matchesMiddle`), or `SkipAny` (the line is exactly `...`). -/
inductive PatternLine where
  | exact (text : Line)
  | matchesEnd (tail : Line)
  | matchesStart (head : Line)
  | matchesMiddle (middle : Line)
  | skipAny
deriving DecidableEq

/-- Modelled from the spec: tag one expected line by its wildcard shape
(spec §3 and §6): a line of exactly `...` skips zero or more lines; a line
starting with `...` matches line ends; a line ending with `...` matches
line starts; both markers match a substring; otherwise the line is exact. -/
def classify_line (l : Line) : PatternLine :=
  if l = "...".data then .skipAny
  else if l.take 3 = "...".data ∧ (l.reverse.take 3).reverse = "...".data then
    .matchesMiddle ((l.drop 3).take (l.length - 6))
  else if l.take 3 = "...".data then .matchesEnd (l.drop 3)
  else if (l.reverse.take 3).reverse = "...".data then
    .matchesStart (l.take (l.length - 3))
  else .exact l

/-- Follows the claim's words (C8), for comparison with the code: the value
sequence "consists of each continuation line trimmed of its leading/trailing
whitespace, in source order, with blank lines inside the value kept as empty
strings", over the lines up to (but excluding) the first non-blank line
indented at most `indent`. -/
def spec_continuation_vals (ls : List Line) (indent : Nat) : List Line :=
  match ls with
  | [] => []
  | l :: rest =>
    if l.all rustIsWhitespace then [] :: spec_continuation_vals rest indent
    else if indent_level l ≤ indent then []
    else rustTrim l :: spec_continuation_vals rest indent

/-- Input class on which the parser's byte-offset slicing is in bounds and
on character boundaries: every character is a single UTF-8 byte, and no
line's indentation exceeds any non-blank line's byte length. -/
def lines_ok (lines : List Line) : Prop :=
  (∀ l ∈ lines, ∀ c ∈ l, c.utf8Size = 1) ∧
  (∀ l1 ∈ lines, ∀ l2 ∈ lines,
    indent_level l2 ≠ byte_len l2 → indent_level l1 ≤ byte_len l2)

instance (lines : List Line) : Decidable (lines_ok lines) := by
  unfold lines_ok; infer_instance

/-- Decidable equality for `Except`, so that concrete runs of the parser
can be checked by `decide`. -/
instance {ε α : Type} [DecidableEq ε] [DecidableEq α] : DecidableEq (Except ε α) :=
  fun x y =>
    match x, y with
    | .error a, .error b =>
      if h : a = b then isTrue (by rw [h])
      else isFalse (by intro hh; cases hh; exact h rfl)
    | .ok a, .ok b =>
      if h : a = b then isTrue (by rw [h])
      else isFalse (by intro hh; cases hh; exact h rfl)
    | .error _, .ok _ => isFalse (by intro h; cases h)
    | .ok _, .error _ => isFalse (by intro h; cases h)

/-!  Sanity checks: the embedding reproduces the repository's own unit
tests of `key_multiline_val` (`parser.rs` lines 167–182), with the returned
`end_line_off` equal to the key line's offset (0) plus one plus the
consumed count. -/

theorem key_multiline_val_repo_test_1 :
    key_multiline_val "x:".data [[]] 0 = .ok ("x".data, [], 1) := by decide

theorem key_multiline_val_repo_test_2 :
    key_multiline_val "x: y".data ["  z".data, "a".data] 0 =
      .ok ("x".data, ["y".data, "z".data], 1) := by decide

theorem key_multiline_val_repo_test_3 :
    key_multiline_val "x:".data ["  z".data, "a".data] 0 =
      .ok ("x".data, ["z".data], 1) := by decide

theorem key_multiline_val_repo_test_4 :
    key_multiline_val "x:".data
        ["  z  ".data, "  a  ".data, "  ".data, "b".data] 0 =
      .ok ("x".data, ["z".data, "a".data], 3) := by decide

/-!  ## Claim C2 -/

/-- C2: the parsed representation distinguishes "no stdout entry" from "a
`stdout:` entry with an empty value": the first yields an absent
(`none`) stdout assertion, the second a present-but-empty (`some []`)
one, and the resulting structures are not equal; same for stderr.  The
generic conjuncts show the distinction holds for every entry value and
every starting command, not just the concrete inputs. -/
theorem claim_C2_theorem :
    parse_tests "a:" = .ok ⟨false, [("a".data, TestCmd.default)]⟩ ∧
    parse_tests "a:\n  stdout:" =
      .ok ⟨false, [("a".data, ⟨[], .success, none, some []⟩)]⟩ ∧
    parse_tests "a:\n  stderr:" =
      .ok ⟨false, [("a".data, ⟨[], .success, some [], none⟩)]⟩ ∧
    TestCmd.default ≠ ⟨[], .success, none, some []⟩ ∧
    TestCmd.default ≠ ⟨[], .success, some [], none⟩ ∧
    TestCmd.default.stdout = none ∧ TestCmd.default.stderr = none ∧
    (∀ (cmd : TestCmd) (v : List Line),
      applyEntry "stdout".data v cmd = .ok { cmd with stdout := some v }) ∧
    (∀ (cmd : TestCmd) (v : List Line),
      applyEntry "stderr".data v cmd = .ok { cmd with stderr := some v }) :=
  ⟨by decide, by decide, by decide, by decide, by decide, rfl, rfl,
   fun _ _ => rfl, fun _ _ => rfl⟩

/-!  ## Claim C3 -/

/-- C3 counterexample: the input consisting solely of the line `ignore`
(no colon) is NOT parsed successfully — `key_val` hits the fatal
"Invalid key terminator" error, because after the key token it requires a
`:` (`parser.rs` lines 111–117). -/
theorem claim_C3_counterexample :
    parse_tests "ignore" = .error .invalidKeyTerminator := by decide

/-- C3 amended: the `ignore` marker must be written with a colon.  The
input consisting solely of the line `ignore:` parses successfully and
yields `skip == true` (and no commands). -/
theorem claim_C3_theorem :
    parse_tests "ignore:" = .ok ⟨true, []⟩ := by decide

/-!  ## Claim C7 -/

/-- C7: parsing the six-line Compiler spec yields exactly one command,
keyed `compiler`, with expected status Success and expected stderr the
three trimmed lines, which the (spec-modelled) pattern layer tags
Exact / PrefixWildcard / SkipAny. -/
theorem claim_C7_theorem :
    parse_tests "Compiler:\n  status: success\n  stderr:\n    warning: unused variable: `x`\n      ...unused_var.rs:12:9\n      ..." =
      .ok ⟨false, [("compiler".data,
        ⟨[], .success,
         some ["warning: unused variable: `x`".data,
               "...unused_var.rs:12:9".data,
               "...".data],
         none⟩)]⟩ ∧
    ["warning: unused variable: `x`".data,
     "...unused_var.rs:12:9".data,
     "...".data].map classify_line =
      [.exact "warning: unused variable: `x`".data,
       .matchesEnd "unused_var.rs:12:9".data,
       .skipAny] :=
  ⟨by decide, by decide⟩

/-!  ## Claim C1 (counterexample and amended theorem) -/

/-- C1 counterexample: with the `ignore` marker as the first non-blank
line, a command label on the following line IS recorded — the commands
mapping is not empty, contradicting the claim. -/
theorem claim_C1_counterexample :
    parse_tests "ignore:\na:" = .ok ⟨true, [("a".data, TestCmd.default)]⟩ ∧
    [("a".data, TestCmd.default)] ≠ ([] : List (Line × TestCmd)) := by decide

/-- C1 amended: an `ignore:` marker line sets the flag and moves on — the
following lines are still parsed exactly as they would be with the flag
already set (so command labels after the marker ARE recorded), and
whenever that parse succeeds the result has `skip == true`. -/
theorem claim_C1_theorem :
    (∀ (fuel : Nat) (ls : List Line) (i : Bool) (ts : List (Line × TestCmd)),
      parse_outer (fuel + 1) ("ignore:".data :: ls) i ts =
        parse_outer fuel ls true ts) ∧
    (∀ (fuel : Nat) (ls : List Line) (ts : List (Line × TestCmd)) (t : Tests),
      parse_outer fuel ls true ts = .ok t → t.ignore = true) := by
  constructor
  · intro fuel ls i ts
    rfl
  · intro fuel
    induction fuel with
    | zero =>
      intro ls ts t h
      cases ls with
      | nil => simp only [parse_outer] at h; cases h; rfl
      | cons l rest => simp only [parse_outer] at h; simp at h
    | succ n ih =>
      intro ls ts t h
      cases ls with
      | nil => simp only [parse_outer] at h; cases h; rfl
      | cons l rest =>
        simp only [parse_outer] at h
        split at h
        · exact ih _ _ _ h
        · split at h
          · exact absurd h (by simp)
          · split at h
            · exact ih _ _ _ h
            · split at h
              · exact absurd h (by simp)
              · split at h
                · exact absurd h (by simp)
                · split at h
                  · exact absurd h (by simp)
                  · exact ih _ _ _ h

/-- C1 witness: the amended theorem applied at concrete inputs. -/
theorem claim_C1_witness :
    parse_outer 6 ("ignore:".data :: []) false [] = parse_outer 5 [] true [] ∧
    (⟨true, []⟩ : Tests).ignore = true :=
  ⟨claim_C1_theorem.1 5 [] false [], claim_C1_theorem.2 1 [] [] ⟨true, []⟩ rfl⟩

/-!  ## Claim C4 (counterexample and amended theorem) -/

/-- C4 counterexample: a non-blank line indented strictly LESS than the
label does not end the label's entry block — it is consumed as one of the
label's entries.  Here ` status: error` (indent 1) under the label `  a:`
(indent 2) becomes `a`'s `status` entry, so the parse succeeds with
status `Error`; under the claim the line would instead have ended the
block and been read as a new label with a value, a fatal error. -/
theorem claim_C4_counterexample :
    parse_tests "  a:\n status: error" =
      .ok ⟨false, [("a".data, ⟨[], .error, none, none⟩)]⟩ := by decide

/-- C4 amended: a non-blank line indented *exactly* like the label ends
the label's entry block (and is not one of its entries); every non-blank
line whose indentation *differs* from the label's — strictly more or
strictly less — is consumed as a `key: value` entry of the label, after
which parsing of the block continues past the entry's consumed lines. -/
theorem claim_C4_theorem :
    ∀ (fuel : Nat) (l : Line) (ls : List Line) (indent : Nat) (cmd : TestCmd),
      indent_level l ≠ byte_len l →
      ((indent_level l = indent →
        parse_entries (fuel + 1) (l :: ls) indent cmd = .ok (cmd, 0)) ∧
       (indent_level l ≠ indent →
        ∀ (key : Line) (val : List Line) (n : Nat) (cmd2 : TestCmd),
          key_multiline_val l ls (indent_level l) = .ok (key, val, n) →
          applyEntry key val cmd = .ok cmd2 →
          parse_entries (fuel + 1) (l :: ls) indent cmd =
            (parse_entries fuel (ls.drop n) indent cmd2).map
              (fun p => (p.1, 1 + n + p.2)))) := by
  intro fuel l ls indent cmd hnb
  constructor
  · intro he
    simp only [parse_entries]
    rw [if_neg hnb, if_pos he]
  · intro hne key val n cmd2 hkmv happ
    cases hpe : parse_entries fuel (ls.drop n) indent cmd2 with
    | ok p =>
      cases p with
      | mk c m => simp [parse_entries, hnb, hne, hkmv, happ, hpe, Except.map]
    | error e => simp [parse_entries, hnb, hne, hkmv, happ, hpe, Except.map]

/-- C4 witness: the amended theorem applied at concrete inputs — an
equal-indent line ends the block; a differently indented `stdout` line is
consumed as an entry. -/
theorem claim_C4_witness :
    parse_entries 1 [" b".data] 1 TestCmd.default = .ok (TestCmd.default, 0) ∧
    parse_entries 1 ["  stdout: x".data] 0 TestCmd.default =
      (parse_entries 0 [] 0 ⟨[], .success, none, some ["x".data]⟩).map
        (fun p => (p.1, 1 + 0 + p.2)) :=
  ⟨(claim_C4_theorem 0 " b".data [] 1 TestCmd.default (by decide)).1 (by decide),
   (claim_C4_theorem 0 "  stdout: x".data [] 0 TestCmd.default (by decide)).2
     (by decide) "stdout".data ["x".data] 0 ⟨[], .success, none, some ["x".data]⟩
     (by decide) (by decide)⟩

/-!  ## Claim C8 (counterexample) -/

/-- C8 counterexample: a continuation line indented less than the first
continuation line is byte-sliced at the first line's indentation width,
not trimmed: for the entry `k:` with continuation lines `    a` and
`  bcd`, the stored value is `["a", "d"]` — the second entry is `d`, not
the trimmed line `bcd`. -/
theorem claim_C8_counterexample :
    key_multiline_val "k:".data ["    a".data, "  bcd".data] 0 =
      .ok ("k".data, ["a".data, "d".data], 2) ∧
    ["a".data, "d".data] ≠ [rustTrim "    a".data, rustTrim "  bcd".data] := by
  decide

/-!  ## Claim C10 (counterexample) -/

/-- C10 counterexample: `parse_tests` is not panic-free.  On the input
`a:\n k:\n     v\n  x` the continuation line `  x` (indent 2, byte length
3) is sliced at the first continuation line's indentation 5 —
`&"  x"[5..]` — which indexes out of bounds and panics in Rust. -/
theorem claim_C10_counterexample :
    parse_tests "a:\n k:\n     v\n  x" = .error .panicked := by decide

/-!  ## Lowercasing lemmas -/

/-- On an uppercase ASCII letter, `to_lower_char` adds 32 to the code. -/
theorem to_lower_char_toNat_of_upper (c : Char)
    (h : 65 ≤ c.toNat ∧ c.toNat ≤ 90) :
    (to_lower_char c).toNat = c.toNat + 32 := by
  unfold to_lower_char
  rw [dif_pos h]
  rfl

/-- Outside `A`–`Z`, `to_lower_char` fixes the character. -/
theorem to_lower_char_eq_self (c : Char)
    (h : ¬(65 ≤ c.toNat ∧ c.toNat ≤ 90)) :
    to_lower_char c = c := by
  unfold to_lower_char
  rw [dif_neg h]

/-- `to_lower_char` is idempotent. -/
theorem to_lower_char_idem (c : Char) :
    to_lower_char (to_lower_char c) = to_lower_char c := by
  by_cases h : 65 ≤ c.toNat ∧ c.toNat ≤ 90
  · refine to_lower_char_eq_self _ ?_
    rw [to_lower_char_toNat_of_upper c h]
    omega
  · rw [to_lower_char_eq_self c h]
    exact to_lower_char_eq_self c h

/-- `to_lowercase` is idempotent. -/
theorem to_lowercase_idem (l : Line) :
    to_lowercase (to_lowercase l) = to_lowercase l := by
  unfold to_lowercase
  rw [List.map_map]
  exact List.map_congr_left fun c _ => to_lower_char_idem c

/-- `to_lower_char` preserves digit-ness. -/
theorem is_ascii_digit_to_lower_char (c : Char) :
    is_ascii_digit (to_lower_char c) = is_ascii_digit c := by
  by_cases h : 65 ≤ c.toNat ∧ c.toNat ≤ 90
  · have h2 := to_lower_char_toNat_of_upper c h
    have hd1 : decide ((to_lower_char c).toNat ≤ 57) = false :=
      decide_eq_false (by omega)
    have hd2 : decide (c.toNat ≤ 57) = false := decide_eq_false (by omega)
    unfold is_ascii_digit
    rw [hd1, hd2, Bool.and_false, Bool.and_false]
  · rw [to_lower_char_eq_self c h]

/-- `to_lower_char` fixes digits. -/
theorem to_lower_char_of_digit (c : Char) (h : is_ascii_digit c = true) :
    to_lower_char c = c := by
  refine to_lower_char_eq_self c ?_
  unfold is_ascii_digit at h
  simp only [Bool.and_eq_true, decide_eq_true_eq] at h
  omega

/-- Digit accumulation is unchanged by lowercasing. -/
theorem digitsVal_map_to_lower_char (l : List Char) (acc : Nat) :
    digitsVal (l.map to_lower_char) acc = digitsVal l acc := by
  induction l generalizing acc with
  | nil => rfl
  | cons c cs ih =>
    rw [List.map_cons]
    simp only [digitsVal]
    rw [is_ascii_digit_to_lower_char]
    by_cases h : is_ascii_digit c = true
    · rw [if_pos h, if_pos h, to_lower_char_of_digit c h]
      exact ih _
    · rw [if_neg h, if_neg h]

/-- `parseDigits` is unchanged by lowercasing. -/
theorem parseDigits_map_to_lower_char (l : List Char) :
    parseDigits (l.map to_lower_char) = parseDigits l := by
  cases l with
  | nil => rfl
  | cons c cs =>
    show digitsVal _ 0 = digitsVal _ 0
    exact digitsVal_map_to_lower_char (c :: cs) 0

/-- A value parses as an `i32` iff its lowercased form does (lowercasing
only moves `A`–`Z`, which no integer literal contains). -/
theorem parse_i32_to_lowercase (s : Line) :
    parse_i32 (to_lowercase s) = parse_i32 s := by
  cases s with
  | nil => rfl
  | cons c cs =>
    show parse_i32 (to_lower_char c :: cs.map to_lower_char) = _
    by_cases h : 65 ≤ c.toNat ∧ c.toNat ≤ 90
    · have h2 := to_lower_char_toNat_of_upper c h
      have h43 : ('+' : Char).toNat = 43 := by decide
      have h45 : ('-' : Char).toNat = 45 := by decide
      have hp : to_lower_char c ≠ '+' := by
        intro hh; rw [hh, h43] at h2; omega
      have hm : to_lower_char c ≠ '-' := by
        intro hh; rw [hh, h45] at h2; omega
      have hp2 : c ≠ '+' := by
        intro hh; subst hh; exact absurd h (by decide)
      have hm2 : c ≠ '-' := by
        intro hh; subst hh; exact absurd h (by decide)
      show (if to_lower_char c = '+' then _ else _) = (if c = '+' then _ else _)
      rw [if_neg hp, if_neg hp2, if_neg hm, if_neg hm2]
      have : parseDigits (to_lower_char c :: cs.map to_lower_char) =
          parseDigits (c :: cs) := by
        have := parseDigits_map_to_lower_char (c :: cs)
        rwa [List.map_cons] at this
      rw [this]
    · rw [to_lower_char_eq_self c h]
      show (if c = '+' then _ else _) = (if c = '+' then _ else _)
      by_cases hp : c = '+'
      · rw [if_pos hp, if_pos hp, parseDigits_map_to_lower_char]
      · rw [if_neg hp, if_neg hp]
        by_cases hm : c = '-'
        · rw [if_pos hm, if_pos hm, parseDigits_map_to_lower_char]
        · rw [if_neg hm, if_neg hm]
          have : parseDigits (c :: cs.map to_lower_char) =
              parseDigits (c :: cs) := by
            have h3 := parseDigits_map_to_lower_char (c :: cs)
            rw [List.map_cons, to_lower_char_eq_self c h] at h3
            exact h3
          rw [this]

/-!  ## Claim C6 -/

/-- C6: a `status` value is matched case-insensitively against `success`,
`error`, `signal`; any other value that parses as an integer yields the
explicit exit-code status with that integer; any remaining value is the
fatal "unknown status" error. -/
theorem claim_C6_theorem :
    ∀ v : Line,
      (to_lowercase v = "success".data → parse_status v = .ok .success) ∧
      (to_lowercase v = "error".data → parse_status v = .ok .error) ∧
      (to_lowercase v = "signal".data → parse_status v = .ok .signal) ∧
      (to_lowercase v ∉ ["success".data, "error".data, "signal".data] →
        (∀ i : Int, parse_i32 v = some i → parse_status v = .ok (.int i)) ∧
        (parse_i32 v = none → parse_status v = .error .unknownStatus)) := by
  intro v
  refine ⟨?_, ?_, ?_, ?_⟩
  · intro h; simp [parse_status, h]
  · intro h; simp [parse_status, h]
  · intro h; simp [parse_status, h]
  · intro hmem
    simp only [List.mem_cons, List.mem_singleton, not_or] at hmem
    obtain ⟨h1, h2, h3⟩ := hmem
    constructor
    · intro i hi
      simp [parse_status, h1, h2, h3, parse_i32_to_lowercase, hi]
    · intro hi
      simp [parse_status, h1, h2, h3, parse_i32_to_lowercase, hi]

/-- C6 witness: the theorem applied at concrete status values. -/
theorem claim_C6_witness :
    parse_status "Success".data = .ok .success ∧
    parse_status "42".data = .ok (.int 42) ∧
    parse_status "nope".data = .error .unknownStatus :=
  ⟨(claim_C6_theorem ("Success".data)).1 (by decide),
   ((claim_C6_theorem ("42".data)).2.2.2 (by decide)).1 42 (by decide),
   ((claim_C6_theorem ("nope".data)).2.2.2 (by decide)).2 (by decide)⟩

/-!  ## Claim C5 -/

/-- When `lookupCmd` finds nothing, the key is not among the stored keys. -/
theorem lookupCmd_eq_none_notMem :
    ∀ (k : Line) (ts : List (Line × TestCmd)),
      lookupCmd k ts = none → k ∉ ts.map Prod.fst := by
  intro k ts
  induction ts with
  | nil => intro _ hmem; simp at hmem
  | cons p rest ih =>
    obtain ⟨k2, c⟩ := p
    intro h hmem
    rw [List.map_cons] at hmem
    have hstep : (if k = k2 then some c else lookupCmd k rest) = none := h
    by_cases hk : k = k2
    · rw [if_pos hk] at hstep
      exact Option.noConfusion hstep
    · rw [if_neg hk] at hstep
      rcases List.mem_cons.mp hmem with h1 | h2
      · exact hk h1
      · exact ih hstep h2

/-- Invariant of the outer parsing loop: if the accumulated command list
has pairwise-distinct, lowercased keys, so does the final one.  Keys are
only ever inserted lowercased, and only after `lookupCmd` reports them
absent. -/
theorem parse_outer_inv :
    ∀ (fuel : Nat) (ls : List Line) (i : Bool) (ts : List (Line × TestCmd))
      (t : Tests),
      parse_outer fuel ls i ts = .ok t →
      (ts.map Prod.fst).Nodup → (∀ p ∈ ts, p.1 = to_lowercase p.1) →
      (t.tests.map Prod.fst).Nodup ∧ ∀ p ∈ t.tests, p.1 = to_lowercase p.1 := by
  intro fuel
  induction fuel with
  | zero =>
    intro ls i ts t h h1 h2
    cases ls with
    | nil => simp only [parse_outer] at h; cases h; exact ⟨h1, h2⟩
    | cons l rest => simp only [parse_outer] at h; simp at h
  | succ n ih =>
    intro ls i ts t h h1 h2
    cases ls with
    | nil => simp only [parse_outer] at h; cases h; exact ⟨h1, h2⟩
    | cons l rest =>
      simp only [parse_outer] at h
      split at h
      · exact ih _ _ _ _ h h1 h2
      · split at h
        · simp at h
        · split at h
          · exact ih _ _ _ _ h h1 h2
          · split at h
            · simp at h
            · split at h
              · simp at h
              · rename_i hlook
                split at h
                · simp at h
                · refine ih _ _ _ _ h ?_ ?_
                  · rw [List.map_append, List.nodup_append]
                    refine ⟨h1, List.nodup_singleton _, ?_⟩
                    intro a ha hb
                    simp only [List.map_cons, List.map_nil,
                      List.mem_singleton] at hb
                    subst hb
                    exact absurd ha (lookupCmd_eq_none_notMem _ _
                      (Option.not_isSome_iff_eq_none.mp hlook))
                  · intro p hp
                    rcases List.mem_append.mp hp with hp1 | hp2
                    · exact h2 p hp1
                    · simp only [List.mem_singleton] at hp2
                      subst hp2
                      exact (to_lowercase_idem _).symm

/-- C5: every successfully parsed spec's commands mapping has
pairwise-distinct keys, each equal to its own lowercasing; declaring a
label whose lowercased form is already present is the fatal
"command name specified more than once" error (second conjunct: the exact
step of the outer loop; third conjunct: two labels differing only in
letter case collide). -/
theorem claim_C5_theorem :
    (∀ (s : String) (t : Tests), parse_tests s = .ok t →
      (t.tests.map Prod.fst).Nodup ∧ ∀ p ∈ t.tests, p.1 = to_lowercase p.1) ∧
    (∀ (fuel : Nat) (l : Line) (rest : List Line) (i : Bool)
       (ts : List (Line × TestCmd)) (name : Line),
      indent_level l ≠ byte_len l →
      key_val l (indent_level l) = .ok (name, []) →
      name ≠ "ignore".data →
      (lookupCmd (to_lowercase name) ts).isSome = true →
      parse_outer (fuel + 1) (l :: rest) i ts = .error .duplicateCommandName) ∧
    parse_tests "a:\nA:" = .error .duplicateCommandName := by
  refine ⟨?_, ?_, by decide⟩
  · intro s t h
    exact parse_outer_inv _ _ _ _ _ h (by simp) (by simp)
  · intro fuel l rest i ts name hnb hkv hig hlook
    simp [parse_outer, hnb, hkv, hig, hlook]

/-- C5 witness: the theorem applied at concrete inputs. -/
theorem claim_C5_witness :
    (([("a".data, TestCmd.default)].map Prod.fst).Nodup ∧
      ∀ p ∈ [("a".data, TestCmd.default)], p.1 = to_lowercase p.1) ∧
    parse_outer 1 ["A:".data] false [("a".data, TestCmd.default)] =
      .error .duplicateCommandName :=
  ⟨claim_C5_theorem.1 "a:" ⟨false, [("a".data, TestCmd.default)]⟩ (by decide),
   claim_C5_theorem.2.1 0 "A:".data [] false [("a".data, TestCmd.default)]
     "A".data (by decide) (by decide) (by decide) (by decide)⟩

/-!  ## Claim C9 -/

/-- `parse_status` never raises the "unknown key" error — its only error
is `unknownStatus`. -/
theorem parse_status_ne_unknownKey (s : Line) :
    parse_status s ≠ .error .unknownKey := by
  simp only [parse_status]
  split
  · simp
  · split
    · simp
    · split
      · simp
      · split <;> simp

/-- C9: within a command's entry block an entry is accepted iff its key is
exactly one of `extra-args`, `status`, `stderr`, `stdout` (case-sensitive);
any other key is the fatal "Unknown key" error.  The third conjunct shows
case-sensitivity at the `parse_tests` level: `Status` is not recognized. -/
theorem claim_C9_theorem :
    (∀ (key : Line) (val : List Line) (cmd : TestCmd),
      key ∉ ["extra-args".data, "status".data, "stderr".data, "stdout".data] →
      applyEntry key val cmd = .error .unknownKey) ∧
    (∀ (key : Line) (val : List Line) (cmd : TestCmd),
      key ∈ ["extra-args".data, "status".data, "stderr".data, "stdout".data] →
      applyEntry key val cmd ≠ .error .unknownKey) ∧
    parse_tests "a:\n  Status: success" = .error .unknownKey := by
  refine ⟨?_, ?_, by decide⟩
  · intro key val cmd hk
    simp only [List.mem_cons, List.mem_nil_iff, or_false, not_or] at hk
    obtain ⟨h1, h2, h3, h4⟩ := hk
    simp [applyEntry, h1, h2, h3, h4]
  · intro key val cmd hk
    simp only [List.mem_cons, List.mem_nil_iff, or_false] at hk
    rcases hk with rfl | rfl | rfl | rfl
    · simp [applyEntry]
    · cases hps : parse_status (joinNL val) with
      | ok st => simp [applyEntry, hps]
      | error e =>
        have hne := parse_status_ne_unknownKey (joinNL val)
        rw [hps] at hne
        have he : e ≠ ParseErr.unknownKey := fun hh => hne (by rw [hh])
        simp [applyEntry, hps, he]
    · simp [applyEntry]
    · simp [applyEntry]

/-- C9 witness: the theorem applied at concrete keys. -/
theorem claim_C9_witness :
    applyEntry "foo".data [] TestCmd.default = .error .unknownKey ∧
    applyEntry "stdout".data [] TestCmd.default ≠ .error .unknownKey :=
  ⟨claim_C9_theorem.1 "foo".data [] TestCmd.default (by decide),
   claim_C9_theorem.2.1 "stdout".data [] TestCmd.default (by decide)⟩

/-!  ## Claim C8 (amended theorem) -/

/-- A `take_while` count never exceeds the length. -/
theorem countWhile_le (p : Char → Bool) (l : List Char) :
    countWhile p l ≤ l.length := by
  induction l with
  | nil => simp [countWhile]
  | cons c cs ih =>
    simp only [countWhile, List.length_cons]
    split
    · omega
    · omega

/-- The `take_while` count covers the whole line iff every character
satisfies the predicate. -/
theorem countWhile_eq_length_iff (p : Char → Bool) (l : List Char) :
    countWhile p l = l.length ↔ l.all p = true := by
  induction l with
  | nil => simp [countWhile]
  | cons c cs ih =>
    simp only [countWhile, List.length_cons, List.all_cons, Bool.and_eq_true]
    by_cases hp : p c = true
    · rw [if_pos hp]
      constructor
      · intro h; exact ⟨hp, ih.mp (by omega)⟩
      · intro h; have := ih.mpr h.2; omega
    · rw [if_neg hp]
      constructor
      · intro h; omega
      · intro h; exact absurd h.1 hp

/-- On single-byte characters, byte length is character count. -/
theorem byte_len_eq_length_of_one_byte (l : Line)
    (h : ∀ c ∈ l, c.utf8Size = 1) : byte_len l = l.length := by
  induction l with
  | nil => rfl
  | cons c cs ih =>
    show c.utf8Size + byte_len cs = cs.length + 1
    rw [h c (List.mem_cons_self c cs),
      ih (fun x hx => h x (List.mem_cons_of_mem c hx))]
    omega

/-- On single-byte characters, in-bounds byte slicing is `List.drop`. -/
theorem byteDrop_eq_drop_of_one_byte :
    ∀ (l : Line) (n : Nat), (∀ c ∈ l, c.utf8Size = 1) → n ≤ l.length →
      byteDrop n l = some (l.drop n) := by
  intro l
  induction l with
  | nil =>
    intro n _ hn
    have : n = 0 := Nat.le_zero.mp hn
    subst this
    rfl
  | cons c cs ih =>
    intro n h hn
    cases n with
    | zero => rfl
    | succ m =>
      have hc : c.utf8Size = 1 := h c (List.mem_cons_self c cs)
      simp only [byteDrop, hc]
      rw [if_neg (by omega)]
      have h2 : m + 1 - 1 = m := by omega
      rw [h2]
      exact ih m (fun x hx => h x (List.mem_cons_of_mem c hx))
        (by simp only [List.length_cons] at hn; omega)

/-- Dropping part of a line's leading whitespace does not change its
left-trim. -/
theorem trimLeft_drop_of_le :
    ∀ (l : Line) (k : Nat), k ≤ countWhile rustIsWhitespace l →
      trimLeft (l.drop k) = trimLeft l := by
  intro l
  induction l with
  | nil =>
    intro k hk
    have : k = 0 := by simpa [countWhile] using hk
    subst this
    rfl
  | cons c cs ih =>
    intro k hk
    cases k with
    | zero => rfl
    | succ m =>
      have hc : rustIsWhitespace c = true := by
        by_contra hcc
        simp only [countWhile] at hk
        rw [if_neg hcc] at hk
        omega
      have hk2 : m ≤ countWhile rustIsWhitespace cs := by
        simp only [countWhile, if_pos hc] at hk
        omega
      show trimLeft (cs.drop m) = trimLeft (c :: cs)
      rw [ih m hk2]
      unfold trimLeft
      rw [List.dropWhile_cons, if_pos hc]

/-- Dropping part of a line's leading whitespace does not change its
trim. -/
theorem rustTrim_drop_of_le (l : Line) (k : Nat)
    (h : k ≤ countWhile rustIsWhitespace l) :
    rustTrim (l.drop k) = rustTrim l := by
  unfold rustTrim
  rw [trimLeft_drop_of_le l k h]

/-- The head surviving a `dropWhile` falsifies the predicate. -/
theorem dropWhile_head?_false {α : Type} (p : α → Bool) :
    ∀ (l : List α) (x : α), (l.dropWhile p).head? = some x → p x = false := by
  intro l
  induction l with
  | nil => intro x h; simp at h
  | cons c cs ih =>
    intro x h
    rw [List.dropWhile_cons] at h
    by_cases hc : p c = true
    · rw [if_pos hc] at h
      exact ih x h
    · rw [if_neg hc] at h
      have : c = x := by simpa using h
      subst this
      simpa using hc

/-- `dropWhile` keeps the last element, unless it empties the list. -/
theorem dropWhile_getLast?_or {α : Type} (p : α → Bool) :
    ∀ l : List α, (l.dropWhile p).getLast? = l.getLast? ∨ l.dropWhile p = [] := by
  intro l
  induction l with
  | nil => right; rfl
  | cons c cs ih =>
    rw [List.dropWhile_cons]
    by_cases hc : p c = true
    · rw [if_pos hc]
      cases cs with
      | nil => right; rfl
      | cons d ds =>
        rcases ih with h1 | h2
        · left
          rw [h1, List.getLast?_cons_cons]
        · right; exact h2
    · rw [if_neg hc]; left; rfl

/-- After removing trailing empties, the last entry is not empty. -/
theorem remTrailingEmpty_getLast?_ne (w : List Line) :
    (remTrailingEmpty w).getLast? ≠ some [] := by
  unfold remTrailingEmpty
  rw [List.getLast?_reverse]
  intro h
  have := dropWhile_head?_false List.isEmpty _ _ h
  simp at this

/-- After removing trailing then leading empties, the stored sequence
neither begins nor ends with an empty string. -/
theorem strip_head_getLast (w : List Line) :
    (remLeadingEmpty (remTrailingEmpty w)).head? ≠ some [] ∧
    (remLeadingEmpty (remTrailingEmpty w)).getLast? ≠ some [] := by
  constructor
  · intro h
    have := dropWhile_head?_false List.isEmpty _ _ h
    simp at this
  · unfold remLeadingEmpty
    rcases dropWhile_getLast?_or List.isEmpty (remTrailingEmpty w) with h1 | h2
    · rw [h1]
      exact remTrailingEmpty_getLast?_ne w
    · rw [h2]; simp

/-- Under the C8 side conditions (single-byte characters; no consumed
continuation line less indented than the first), the continuation loop
collects exactly the spec's per-line trims, blanks kept as empties. -/
theorem kmv_loop_spec :
    ∀ (ls : List Line) (sub indent : Nat),
      (∀ x ∈ ls, ∀ c ∈ x, c.utf8Size = 1) →
      (∀ x ∈ ls, ¬(x.all rustIsWhitespace = true) → indent < indent_level x →
        sub ≤ indent_level x) →
      ∃ n, kmv_loop ls sub indent = .ok (spec_continuation_vals ls indent, n) := by
  intro ls sub indent
  induction ls with
  | nil => intro _ _; exact ⟨0, rfl⟩
  | cons l rest ih =>
    intro h1 h2
    have hob : ∀ c ∈ l, c.utf8Size = 1 := h1 l (List.mem_cons_self l rest)
    have h1r : ∀ x ∈ rest, ∀ c ∈ x, c.utf8Size = 1 :=
      fun x hx => h1 x (List.mem_cons_of_mem l hx)
    have h2r : ∀ x ∈ rest, ¬(x.all rustIsWhitespace = true) →
        indent < indent_level x → sub ≤ indent_level x :=
      fun x hx => h2 x (List.mem_cons_of_mem l hx)
    by_cases hb : indent_level l = byte_len l
    · have hall : l.all rustIsWhitespace = true := by
        rw [byte_len_eq_length_of_one_byte l hob] at hb
        exact (countWhile_eq_length_iff _ _).mp hb
      obtain ⟨n, hn⟩ := ih h1r h2r
      refine ⟨n + 1, ?_⟩
      simp only [kmv_loop, spec_continuation_vals, hb, hall, hn]
      rfl
    · have hnotall : ¬(l.all rustIsWhitespace = true) := by
        intro hall
        apply hb
        rw [byte_len_eq_length_of_one_byte l hob]
        exact (countWhile_eq_length_iff _ _).mpr hall
      by_cases hle : indent_level l ≤ indent
      · refine ⟨0, ?_⟩
        simp only [kmv_loop, spec_continuation_vals, hb, hnotall, hle]
        rfl
      · have hlt : indent < indent_level l := by omega
        have hsub : sub ≤ indent_level l :=
          h2 l (List.mem_cons_self l rest) hnotall hlt
        have hsublen : sub ≤ l.length :=
          le_trans hsub (countWhile_le _ _)
        have hdrop : byteDrop sub l = some (l.drop sub) :=
          byteDrop_eq_drop_of_one_byte l sub hob hsublen
        have htrim : rustTrim (l.drop sub) = rustTrim l :=
          rustTrim_drop_of_le l sub hsub
        obtain ⟨n, hn⟩ := ih h1r h2r
        refine ⟨n + 1, ?_⟩
        simp only [kmv_loop, spec_continuation_vals, hb, hnotall, hle, hdrop,
          hn, htrim]
        simp

/-- C8 amended: a multi-line value's stored sequence consists of the key
line's own (trimmed) value followed by each consumed continuation line
byte-sliced at the *first* continuation line's indentation and then
trimmed, with blank lines kept as empty strings, and leading and trailing
empty entries removed.  When every character is a single byte and no
consumed continuation line is less indented than the first one, the slice
is whitespace-only, so the entries are exactly the claim's per-line trims
(first conjunct).  In all cases the stored sequence never begins or ends
with an empty string (second conjunct). -/
theorem claim_C8_theorem :
    (∀ (l : Line) (ls : List Line) (indent : Nat) (key fv : Line),
      key_val l indent = .ok (key, fv) →
      (∀ x ∈ ls, ∀ c ∈ x, c.utf8Size = 1) →
      (∀ x ∈ ls, ¬(x.all rustIsWhitespace = true) → indent < indent_level x →
        indent_level (ls.headD []) ≤ indent_level x) →
      ∃ n, key_multiline_val l ls indent =
        .ok (key, remLeadingEmpty (remTrailingEmpty
          (fv :: spec_continuation_vals ls indent)), n)) ∧
    (∀ (l : Line) (ls : List Line) (indent : Nat) (k2 : Line) (v : List Line)
       (n : Nat),
      key_multiline_val l ls indent = .ok (k2, v, n) →
      v.head? ≠ some [] ∧ v.getLast? ≠ some []) := by
  constructor
  · intro l ls indent key fv hkv h1 h2
    cases ls with
    | nil =>
      refine ⟨0, ?_⟩
      simp only [key_multiline_val, spec_continuation_vals, hkv]
    | cons l1 rest =>
      obtain ⟨n, hn⟩ := kmv_loop_spec (l1 :: rest) (indent_level l1) indent h1 h2
      refine ⟨n, ?_⟩
      simp only [key_multiline_val, hkv, hn]
  · intro l ls indent k2 v n h
    simp only [key_multiline_val] at h
    split at h
    · simp at h
    · split at h
      · simp only [Except.ok.injEq, Prod.mk.injEq] at h
        obtain ⟨-, hv, -⟩ := h
        subst hv
        exact strip_head_getLast _
      · split at h
        · simp at h
        · simp only [Except.ok.injEq, Prod.mk.injEq] at h
          obtain ⟨-, hv, -⟩ := h
          subst hv
          exact strip_head_getLast _

/-- C8 witness: the amended theorem applied at a concrete entry. -/
theorem claim_C8_witness :
    (∃ n, key_multiline_val "k: a".data ["  b".data] 0 =
      .ok ("k".data, remLeadingEmpty (remTrailingEmpty
        ("a".data :: spec_continuation_vals ["  b".data] 0)), n)) ∧
    (["a".data, "b".data].head? ≠ some [] ∧
      ["a".data, "b".data].getLast? ≠ some []) :=
  ⟨claim_C8_theorem.1 "k: a".data ["  b".data] 0 "k".data "a".data
     (by decide) (by decide) (by decide),
   claim_C8_theorem.2 "k: a".data ["  b".data] 0 "k".data
     ["a".data, "b".data] 1 (by decide)⟩

/-!  ## Claim C10 (amended theorem): no panics on well-formed input,
and the fuel supplied by `parse_tests` is always sufficient. -/

/-- On single-byte characters, in-bounds byte taking is `List.take`. -/
theorem byteTake_eq_take_of_one_byte :
    ∀ (l : Line) (n : Nat), (∀ c ∈ l, c.utf8Size = 1) → n ≤ l.length →
      byteTake n l = some (l.take n) := by
  intro l
  induction l with
  | nil =>
    intro n _ hn
    have : n = 0 := Nat.le_zero.mp hn
    subst this
    rfl
  | cons c cs ih =>
    intro n h hn
    cases n with
    | zero => rfl
    | succ m =>
      have hc : c.utf8Size = 1 := h c (List.mem_cons_self c cs)
      simp only [byteTake, hc]
      rw [if_neg (by omega)]
      have h2 : m + 1 - 1 = m := by omega
      rw [h2]
      rw [ih m (fun x hx => h x (List.mem_cons_of_mem c hx))
        (by simp only [List.length_cons] at hn; omega)]
      rfl

/-- With single-byte characters, `key_val` at the line's own indentation
cannot panic: every byte offset it slices at is a character count bounded
by the remaining length. -/
theorem key_val_ne_panicked (l : Line) (h : ∀ c ∈ l, c.utf8Size = 1) :
    key_val l (indent_level l) ≠ .error .panicked := by
  intro hcontra
  simp only [key_val] at hcontra
  simp only [byteDrop_eq_drop_of_one_byte l (indent_level l) h
    (countWhile_le _ _)] at hcontra
  set r1 := l.drop (indent_level l) with hr1
  have hob1 : ∀ c ∈ r1, c.utf8Size = 1 :=
    fun c hc => h c (List.drop_subset _ _ hc)
  simp only [byteTake_eq_take_of_one_byte r1
      (countWhile (fun c => !(rustIsWhitespace c || c == ':')) r1) hob1
      (countWhile_le _ _),
    byteDrop_eq_drop_of_one_byte r1
      (countWhile (fun c => !(rustIsWhitespace c || c == ':')) r1) hob1
      (countWhile_le _ _)] at hcontra
  set r2 := r1.drop (countWhile (fun c => !(rustIsWhitespace c || c == ':')) r1)
    with hr2
  have hob2 : ∀ c ∈ r2, c.utf8Size = 1 :=
    fun c hc => hob1 c (List.drop_subset _ _ hc)
  simp only [byteDrop_eq_drop_of_one_byte r2 (countWhile rustIsWhitespace r2)
    hob2 (countWhile_le _ _)] at hcontra
  have hob3 : ∀ c ∈ r2.drop (countWhile rustIsWhitespace r2), c.utf8Size = 1 :=
    fun c hc => hob2 c (List.drop_subset _ _ hc)
  generalize hgen : r2.drop (countWhile rustIsWhitespace r2) = r3 at hcontra hob3
  split at hcontra
  · rename_i rest4
    have hob4 : ∀ c ∈ rest4, c.utf8Size = 1 :=
      fun c hc => hob3 c (List.mem_cons_of_mem ':' hc)
    simp only [byteDrop_eq_drop_of_one_byte rest4
      (countWhile rustIsWhitespace rest4) hob4 (countWhile_le _ _)] at hcontra
    simp at hcontra
  · simp at hcontra

/-- `key_val` never reports fuel exhaustion (it is not recursive). -/
theorem key_val_ne_outOfFuel (l : Line) (indent : Nat) :
    key_val l indent ≠ .error .outOfFuel := by
  intro hcontra
  simp only [key_val] at hcontra
  repeat' split at hcontra
  all_goals simp at hcontra

/-- A `parse_status` error is always `unknownStatus`. -/
theorem parse_status_error_eq (s : Line) (e : ParseErr)
    (h : parse_status s = .error e) : e = .unknownStatus := by
  simp only [parse_status] at h
  split at h
  · simp at h
  · split at h
    · simp at h
    · split at h
      · simp at h
      · split at h
        · simp at h
        · simp only [Except.error.injEq] at h
          exact h.symm

/-- An `applyEntry` error is `unknownStatus` or `unknownKey`. -/
theorem applyEntry_error_eq (key : Line) (val : List Line) (cmd : TestCmd)
    (e : ParseErr) (h : applyEntry key val cmd = .error e) :
    e = .unknownStatus ∨ e = .unknownKey := by
  simp only [applyEntry] at h
  split at h
  · simp at h
  · split at h
    · split at h
      · simp at h
      · rename_i e2 heq
        have he2 := parse_status_error_eq _ _ heq
        simp only [Except.error.injEq] at h
        left
        rw [← h, he2]
    · split at h
      · simp at h
      · split at h
        · simp at h
        · simp only [Except.error.injEq] at h
          right
          exact h.symm

/-- The continuation loop succeeds whenever characters are single-byte and
the slicing offset is within every non-blank line. -/
theorem kmv_loop_ok :
    ∀ (ls : List Line) (sub indent : Nat),
      (∀ x ∈ ls, ∀ c ∈ x, c.utf8Size = 1) →
      (∀ x ∈ ls, indent_level x ≠ byte_len x → sub ≤ byte_len x) →
      ∃ vs n, kmv_loop ls sub indent = .ok (vs, n) := by
  intro ls sub indent
  induction ls with
  | nil => intro _ _; exact ⟨[], 0, rfl⟩
  | cons l rest ih =>
    intro h1 h2
    have hob : ∀ c ∈ l, c.utf8Size = 1 := h1 l (List.mem_cons_self l rest)
    have h1r : ∀ x ∈ rest, ∀ c ∈ x, c.utf8Size = 1 :=
      fun x hx => h1 x (List.mem_cons_of_mem l hx)
    have h2r : ∀ x ∈ rest, indent_level x ≠ byte_len x → sub ≤ byte_len x :=
      fun x hx => h2 x (List.mem_cons_of_mem l hx)
    obtain ⟨vs, n, hn⟩ := ih h1r h2r
    by_cases hb : indent_level l = byte_len l
    · refine ⟨[] :: vs, n + 1, ?_⟩
      simp only [kmv_loop, hb, hn]
      simp
    · by_cases hle : indent_level l ≤ indent
      · refine ⟨[], 0, ?_⟩
        simp only [kmv_loop, hb, hle]
        simp
      · have hsub : sub ≤ byte_len l := h2 l (List.mem_cons_self l rest) hb
        have hdrop : byteDrop sub l = some (l.drop sub) :=
          byteDrop_eq_drop_of_one_byte l sub hob
            (by rw [← byte_len_eq_length_of_one_byte l hob]; exact hsub)
        refine ⟨rustTrim (l.drop sub) :: vs, n + 1, ?_⟩
        simp only [kmv_loop, hb, hle, hdrop, hn]
        simp

/-- The continuation loop never reports fuel exhaustion. -/
theorem kmv_loop_ne_outOfFuel :
    ∀ (ls : List Line) (sub indent : Nat),
      kmv_loop ls sub indent ≠ .error .outOfFuel := by
  intro ls
  induction ls with
  | nil => intro sub indent h; simp [kmv_loop] at h
  | cons l rest ih =>
    intro sub indent hcontra
    simp only [kmv_loop] at hcontra
    split at hcontra
    · split at hcontra
      · simp at hcontra
      · rename_i e heq
        simp only [Except.error.injEq] at hcontra
        exact ih sub indent (hcontra ▸ heq)
    · split at hcontra
      · simp at hcontra
      · split at hcontra
        · simp at hcontra
        · split at hcontra
          · simp at hcontra
          · rename_i e heq
            simp only [Except.error.injEq] at hcontra
            exact ih sub indent (hcontra ▸ heq)

/-- `key_multiline_val` cannot panic when characters are single-byte and
the first continuation line's indentation fits in every non-blank
continuation line. -/
theorem key_multiline_val_ne_panicked (l : Line) (ls : List Line)
    (hob : ∀ c ∈ l, c.utf8Size = 1)
    (h1 : ∀ x ∈ ls, ∀ c ∈ x, c.utf8Size = 1)
    (h2 : ∀ x ∈ ls, indent_level x ≠ byte_len x →
      indent_level (ls.headD []) ≤ byte_len x) :
    key_multiline_val l ls (indent_level l) ≠ .error .panicked := by
  intro hcontra
  simp only [key_multiline_val] at hcontra
  split at hcontra
  · rename_i e heq
    simp only [Except.error.injEq] at hcontra
    exact key_val_ne_panicked l hob (hcontra ▸ heq)
  · split at hcontra
    · simp at hcontra
    · rename_i l1 rest
      obtain ⟨vs, n, hok⟩ := kmv_loop_ok (l1 :: rest) (indent_level l1) _ h1 h2
      split at hcontra
      · rename_i e heq
        rw [hok] at heq
        simp at heq
      · simp at hcontra

/-- `key_multiline_val` never reports fuel exhaustion. -/
theorem key_multiline_val_ne_outOfFuel (l : Line) (ls : List Line)
    (indent : Nat) :
    key_multiline_val l ls indent ≠ .error .outOfFuel := by
  intro hcontra
  simp only [key_multiline_val] at hcontra
  split at hcontra
  · rename_i e heq
    simp only [Except.error.injEq] at hcontra
    exact key_val_ne_outOfFuel l indent (hcontra ▸ heq)
  · split at hcontra
    · simp at hcontra
    · split at hcontra
      · rename_i e heq
        simp only [Except.error.injEq] at hcontra
        exact kmv_loop_ne_outOfFuel _ _ _ (hcontra ▸ heq)
      · simp at hcontra

/-- The entry loop cannot panic when every character of the block is a
single byte and no line's indentation exceeds a non-blank line's byte
length. -/
theorem parse_entries_ne_panicked :
    ∀ (fuel : Nat) (ls : List Line) (indent : Nat) (cmd : TestCmd),
      (∀ x ∈ ls, ∀ c ∈ x, c.utf8Size = 1) →
      (∀ l1 ∈ ls, ∀ l2 ∈ ls, indent_level l2 ≠ byte_len l2 →
        indent_level l1 ≤ byte_len l2) →
      parse_entries fuel ls indent cmd ≠ .error .panicked := by
  intro fuel
  induction fuel with
  | zero =>
    intro ls indent cmd _ _ hcontra
    cases ls with
    | nil => simp [parse_entries] at hcontra
    | cons l rest => simp [parse_entries] at hcontra
  | succ n ih =>
    intro ls indent cmd h1 h2 hcontra
    cases ls with
    | nil => simp [parse_entries] at hcontra
    | cons l rest =>
      have hob : ∀ c ∈ l, c.utf8Size = 1 := h1 l (List.mem_cons_self l rest)
      have h1r : ∀ x ∈ rest, ∀ c ∈ x, c.utf8Size = 1 :=
        fun x hx => h1 x (List.mem_cons_of_mem l hx)
      have h2r : ∀ l1 ∈ rest, ∀ l2 ∈ rest, indent_level l2 ≠ byte_len l2 →
          indent_level l1 ≤ byte_len l2 :=
        fun l1 hx l2 hy => h2 l1 (List.mem_cons_of_mem l hx) l2
          (List.mem_cons_of_mem l hy)
      simp only [parse_entries] at hcontra
      split at hcontra
      · split at hcontra
        · simp at hcontra
        · rename_i e heq
          simp only [Except.error.injEq] at hcontra
          exact ih rest indent cmd h1r h2r (hcontra ▸ heq)
      · split at hcontra
        · simp at hcontra
        · split at hcontra
          · rename_i e heq
            simp only [Except.error.injEq] at hcontra
            refine key_multiline_val_ne_panicked l rest hob h1r ?_
              (hcontra ▸ heq)
            intro x hx hnb
            cases rest with
            | nil => cases hx
            | cons r rs =>
              exact h2 r (List.mem_cons_of_mem l (List.mem_cons_self r rs)) x
                (List.mem_cons_of_mem l hx) hnb
          · split at hcontra
            · rename_i e heq
              simp only [Except.error.injEq] at hcontra
              rcases applyEntry_error_eq _ _ _ e heq with rfl | rfl <;>
                simp at hcontra
            · split at hcontra
              · simp at hcontra
              · rename_i e heq
                simp only [Except.error.injEq] at hcontra
                refine ih _ indent _ ?_ ?_ (hcontra ▸ heq)
                · exact fun x hx => h1r x (List.drop_subset _ _ hx)
                · exact fun l1 hx l2 hy =>
                    h2r l1 (List.drop_subset _ _ hx) l2 (List.drop_subset _ _ hy)

/-- The entry loop never exhausts its fuel when the fuel covers the
remaining lines: each iteration consumes at least one line. -/
theorem parse_entries_ne_outOfFuel :
    ∀ (fuel : Nat) (ls : List Line) (indent : Nat) (cmd : TestCmd),
      ls.length ≤ fuel →
      parse_entries fuel ls indent cmd ≠ .error .outOfFuel := by
  intro fuel
  induction fuel with
  | zero =>
    intro ls indent cmd hlen hcontra
    cases ls with
    | nil => simp [parse_entries] at hcontra
    | cons l rest => simp at hlen
  | succ n ih =>
    intro ls indent cmd hlen hcontra
    cases ls with
    | nil => simp [parse_entries] at hcontra
    | cons l rest =>
      have hlen2 : rest.length ≤ n := by
        simp only [List.length_cons] at hlen
        omega
      simp only [parse_entries] at hcontra
      split at hcontra
      · split at hcontra
        · simp at hcontra
        · rename_i e heq
          simp only [Except.error.injEq] at hcontra
          exact ih rest indent cmd hlen2 (hcontra ▸ heq)
      · split at hcontra
        · simp at hcontra
        · split at hcontra
          · rename_i e heq
            simp only [Except.error.injEq] at hcontra
            exact key_multiline_val_ne_outOfFuel _ _ _ (hcontra ▸ heq)
          · split at hcontra
            · rename_i e heq
              simp only [Except.error.injEq] at hcontra
              rcases applyEntry_error_eq _ _ _ e heq with rfl | rfl <;>
                simp at hcontra
            · split at hcontra
              · simp at hcontra
              · rename_i e heq
                simp only [Except.error.injEq] at hcontra
                refine ih _ indent _ ?_ (hcontra ▸ heq)
                calc (rest.drop _).length ≤ rest.length :=
                      by rw [List.length_drop]; omega
                  _ ≤ n := hlen2

/-- The outer loop cannot panic on `lines_ok` input. -/
theorem parse_outer_ne_panicked :
    ∀ (fuel : Nat) (ls : List Line) (i : Bool) (ts : List (Line × TestCmd)),
      (∀ x ∈ ls, ∀ c ∈ x, c.utf8Size = 1) →
      (∀ l1 ∈ ls, ∀ l2 ∈ ls, indent_level l2 ≠ byte_len l2 →
        indent_level l1 ≤ byte_len l2) →
      parse_outer fuel ls i ts ≠ .error .panicked := by
  intro fuel
  induction fuel with
  | zero =>
    intro ls i ts _ _ hcontra
    cases ls with
    | nil => simp [parse_outer] at hcontra
    | cons l rest => simp [parse_outer] at hcontra
  | succ n ih =>
    intro ls i ts h1 h2 hcontra
    cases ls with
    | nil => simp [parse_outer] at hcontra
    | cons l rest =>
      have hob : ∀ c ∈ l, c.utf8Size = 1 := h1 l (List.mem_cons_self l rest)
      have h1r : ∀ x ∈ rest, ∀ c ∈ x, c.utf8Size = 1 :=
        fun x hx => h1 x (List.mem_cons_of_mem l hx)
      have h2r : ∀ l1 ∈ rest, ∀ l2 ∈ rest, indent_level l2 ≠ byte_len l2 →
          indent_level l1 ≤ byte_len l2 :=
        fun l1 hx l2 hy => h2 l1 (List.mem_cons_of_mem l hx) l2
          (List.mem_cons_of_mem l hy)
      simp only [parse_outer] at hcontra
      split at hcontra
      · exact ih rest i ts h1r h2r hcontra
      · split at hcontra
        · rename_i e heq
          simp only [Except.error.injEq] at hcontra
          exact key_val_ne_panicked l hob (hcontra ▸ heq)
        · split at hcontra
          · exact ih rest true ts h1r h2r hcontra
          · split at hcontra
            · simp at hcontra
            · split at hcontra
              · simp at hcontra
              · split at hcontra
                · rename_i e heq
                  simp only [Except.error.injEq] at hcontra
                  exact parse_entries_ne_panicked n rest _ _ h1r h2r
                    (hcontra ▸ heq)
                · refine ih _ i _ ?_ ?_ hcontra
                  · exact fun x hx => h1r x (List.drop_subset _ _ hx)
                  · exact fun l1 hx l2 hy =>
                      h2r l1 (List.drop_subset _ _ hx) l2
                        (List.drop_subset _ _ hy)

/-- The outer loop never exhausts its fuel when the fuel covers the
remaining lines. -/
theorem parse_outer_ne_outOfFuel :
    ∀ (fuel : Nat) (ls : List Line) (i : Bool) (ts : List (Line × TestCmd)),
      ls.length ≤ fuel →
      parse_outer fuel ls i ts ≠ .error .outOfFuel := by
  intro fuel
  induction fuel with
  | zero =>
    intro ls i ts hlen hcontra
    cases ls with
    | nil => simp [parse_outer] at hcontra
    | cons l rest => simp at hlen
  | succ n ih =>
    intro ls i ts hlen hcontra
    cases ls with
    | nil => simp [parse_outer] at hcontra
    | cons l rest =>
      have hlen2 : rest.length ≤ n := by
        simp only [List.length_cons] at hlen
        omega
      simp only [parse_outer] at hcontra
      split at hcontra
      · exact ih rest i ts hlen2 hcontra
      · split at hcontra
        · rename_i e heq
          simp only [Except.error.injEq] at hcontra
          exact key_val_ne_outOfFuel l _ (hcontra ▸ heq)
        · split at hcontra
          · exact ih rest true ts hlen2 hcontra
          · split at hcontra
            · simp at hcontra
            · split at hcontra
              · simp at hcontra
              · split at hcontra
                · rename_i e heq
                  simp only [Except.error.injEq] at hcontra
                  exact parse_entries_ne_outOfFuel n rest _ _ hlen2
                    (hcontra ▸ heq)
                · refine ih _ i _ ?_ hcontra
                  calc (rest.drop _).length ≤ rest.length :=
                        by rw [List.length_drop]; omega
                    _ ≤ n := hlen2

/-- C10 amended: `parse_tests` never reports fuel exhaustion (its fuel,
the number of lines, always suffices), and on every input whose lines are
single-byte characters with no line's indentation exceeding a non-blank
line's byte length, it never panics: it returns a `Tests` value or one of
the fatal parse errors.  (The counterexample shows the unconditional claim
is false: outside this class the byte-offset slicing panics.) -/
theorem claim_C10_theorem :
    (∀ s : String, parse_tests s ≠ .error .outOfFuel) ∧
    (∀ s : String, lines_ok (rustLines s.data) →
      parse_tests s ≠ .error .panicked) := by
  constructor
  · intro s
    exact parse_outer_ne_outOfFuel _ _ _ _ (le_refl _)
  · intro s hok
    exact parse_outer_ne_panicked _ _ _ _ hok.1 hok.2

/-- C10 witness: the amended theorem applied at a concrete well-formed
input. -/
theorem claim_C10_witness :
    parse_tests "a:\n  b: c" ≠ .error .panicked :=
  claim_C10_theorem.2 "a:\n  b: c" (by decide)
